import Mathlib

/-!
Verification development for the BLACKSITE anonymous post-rooms application.

The TypeScript source is shallowly embedded: pure client logic becomes Lean
functions, asynchronous Supabase calls become explicit parameters holding the
rows the query would return, timestamps become natural numbers (milliseconds),
and JavaScript truthiness of nullable strings is modelled explicitly.
-/

/-! ## JavaScript string primitives used by the client code -/

/-- JavaScript String.prototype.trim modelled on the character list (Lean's
built-in String.trim does not reduce in the kernel). -/
def jsTrim (s : String) : String :=
  String.mk (((s.toList.dropWhile Char.isWhitespace).reverse.dropWhile Char.isWhitespace).reverse)

/-- JavaScript truthiness of a nullable string: null/undefined and the empty
string are falsy, every other string is truthy. -/
def strTruthy : Option String → Bool
  | none => false
  | some s => s != ""

/-- Stable insertion of one element: the new element goes after every existing
element that compares less-or-equal, matching a stable comparator sort. -/
def insertLe {α : Type} (le : α → α → Bool) (x : α) : List α → List α
  | [] => [x]
  | y :: ys => if le y x then y :: insertLe le x ys else x :: y :: ys

/-- Stable sort (JavaScript Array.prototype.sort with a numeric comparator is
stable per ES2019), as a left fold of stable insertions. -/
def sortByLe {α : Type} (le : α → α → Bool) (l : List α) : List α :=
  l.foldl (fun acc x => insertLe le x acc) []

/-! ## room-utils.ts -/

/-- The code alphabet from generateRoomCode in src/lib/room-utils.ts; its
source comment says confusing characters like O, 0, I, 1 are excluded. -/
def codeChars : String := "ABCDEFGHIJKLMNPQRSTUVWXYZ23456789"

/-- chars.charAt(Math.floor(Math.random() * chars.length)): the index is
always in [0, 33), which is the alphabet length, so the default of getD is
never consulted. -/
def charAt33 (n : Fin 33) : Char :=
  codeChars.toList.getD n.val 'A'

/-- generateRoomCode from room-utils.ts, parametrised by the sequence of
random draws (one Fin 33 per loop iteration i = 0..7). At i = 4 a hyphen is
appended before the character. -/
def generateRoomCode (rand : Nat → Fin 33) : String :=
  (List.range 8).foldl
    (fun code i => String.push (if i == 4 then String.push code '-' else code) (charAt33 (rand i)))
    ""

/-- A character matched by the regex class [A-Z0-9]. -/
def isCodeChar (c : Char) : Bool :=
  (decide ('A' ≤ c) && decide (c ≤ 'Z')) || (decide ('0' ≤ c) && decide (c ≤ '9'))

/-- Helper for isValidRoomCode: the regex distributes over the character list
as four class characters, a hyphen, and four class characters. -/
def validCodeList : List Char → Bool
  | [a, b, c, d, e, f, g, h, i] =>
    isCodeChar a && isCodeChar b && isCodeChar c && isCodeChar d &&
    (e == '-') &&
    isCodeChar f && isCodeChar g && isCodeChar h && isCodeChar i
  | _ => false

/-- isValidRoomCode from room-utils.ts: the test of /^[A-Z0-9]{4}-[A-Z0-9]{4}$/
on the whole string. -/
def isValidRoomCode (code : String) : Bool :=
  validCodeList code.toList

/-- formatDisplayName from room-utils.ts: name.trim().slice(0, 25). -/
def formatDisplayName (name : String) : String :=
  String.mk ((jsTrim name).toList.take 25)

/-- A row of the bans table (expires_at in milliseconds, null for permanent). -/
structure BanRow where
  room_id : String
  display_name : String
  expires_at : Option Nat
deriving DecidableEq, Repr

/-- The supabase filter .or('expires_at.is.null,expires_at.gt.now()'). -/
def banActive (now : Nat) (b : BanRow) : Bool :=
  match b.expires_at with
  | none => true
  | some t => decide (now < t)

/-- isDisplayNameBanned from room-utils.ts: a select on bans filtered by room,
display name, and active expiry, limited to one row; the result is true when
at least one row comes back (the error-free case is modelled). -/
def isDisplayNameBanned (bans : List BanRow) (now : Nat)
    (roomId displayName : String) : Bool :=
  bans.any (fun b => b.room_id == roomId && b.display_name == displayName && banActive now b)

/-! ## JoinRoomModal: validateRoomCode and joinRoom -/

/-- The roomInfo state set by validateRoomCode. -/
structure RoomInfo where
  title : String
  description : Option String
  requiresPassword : Bool
deriving DecidableEq, Repr

/-- The rooms row selected by validateRoomCode
(title, description, password_hash, expiry_at). -/
structure RoomDetailsRow where
  title : String
  description : Option String
  password_hash : Option String
  expiry_at : Option Nat
deriving DecidableEq, Repr

/-- The rooms row selected by joinRoom (id, password_hash). -/
structure RoomAuthRow where
  id : String
  password_hash : Option String
deriving DecidableEq, Repr

/-- The blacksite_session object stored in localStorage on a successful join. -/
structure SessionData where
  roomCode : String
  displayName : String
deriving DecidableEq, Repr

/-- The two steps of the join modal. -/
inductive JoinStep where
  | code
  | details
deriving DecidableEq, Repr

/-- Externally visible outcome of one run of validateRoomCode: the toast
shown (if any), the roomInfo state written (none = left untouched), and the
step the modal is on afterwards (it starts at JoinStep.code). -/
structure ValidateOutcome where
  toastTitle : Option String
  roomInfoSet : Option RoomInfo
  step : JoinStep
deriving DecidableEq, Repr

/-- validateRoomCode from the JoinRoomModal component. The supabase lookup of
the room by code is passed in as roomFetch (none models both a query error and
a missing row, which the code treats alike). -/
def validateRoomCode (now : Nat) (roomCode : String)
    (roomFetch : Option RoomDetailsRow) : ValidateOutcome :=
  if jsTrim roomCode == "" then
    ⟨some "Room code required", none, JoinStep.code⟩
  else if !(isValidRoomCode roomCode) then
    ⟨some "Invalid format", none, JoinStep.code⟩
  else
    match roomFetch with
    | none => ⟨some "Room not found", none, JoinStep.code⟩
    | some roomData =>
      if (match roomData.expiry_at with
          | some e => decide (e < now)
          | none => false) then
        ⟨some "Room expired", none, JoinStep.code⟩
      else
        ⟨none, some ⟨roomData.title, roomData.description, strTruthy roomData.password_hash⟩,
          JoinStep.details⟩

/-- Externally visible outcome of one run of joinRoom: the toast shown, the
session written to localStorage (none = nothing stored), and whether the
onJoinSuccess callback was invoked. -/
structure JoinOutcome where
  toastTitle : Option String
  sessionStored : Option SessionData
  joinSuccessCalled : Bool
deriving DecidableEq, Repr

/-- The tail of joinRoom after the password check: ban lookup, then session
store, success toast and onJoinSuccess callback. -/
def joinAfterPassword (bans : List BanRow) (now : Nat)
    (roomCode formattedName : String) (roomData : RoomAuthRow) : JoinOutcome :=
  if isDisplayNameBanned bans now roomData.id formattedName then
    ⟨some "Display name banned", none, false⟩
  else
    ⟨some "Joined room successfully!", some ⟨roomCode, formattedName⟩, true⟩

/-- joinRoom from the JoinRoomModal component. hashFn stands for the awaited
hashString (SHA-256); roomInfo is the component state left by
validateRoomCode; roomFetch is the rooms row the function re-fetches. -/
def joinRoom (hashFn : String → String) (bans : List BanRow) (now : Nat)
    (roomCode displayName password : String)
    (roomInfo : Option RoomInfo) (roomFetch : Option RoomAuthRow) : JoinOutcome :=
  let formattedName := formatDisplayName displayName
  if formattedName == "" then
    ⟨some "Display name required", none, false⟩
  else if (roomInfo.map RoomInfo.requiresPassword).getD false && (jsTrim password == "") then
    ⟨some "Password required", none, false⟩
  else
    match roomFetch with
    | none => ⟨some "Room not found", none, false⟩
    | some roomData =>
      if strTruthy roomData.password_hash && password != "" then
        if hashFn password != roomData.password_hash.getD "" then
          ⟨some "Incorrect password", none, false⟩
        else
          joinAfterPassword bans now roomCode formattedName roomData
      else
        joinAfterPassword bans now roomCode formattedName roomData

/-- The inline join gate rendered by RoomPage when no session exists: it
formats the name and, if non-empty, immediately writes the session and shows
the Welcome toast. It consults no database table. -/
def inlineJoinGate (roomCode joinName : String) : JoinOutcome :=
  let name := formatDisplayName joinName
  if name == "" then
    ⟨none, none, false⟩
  else
    ⟨some "Welcome", some ⟨roomCode, name⟩, false⟩

/-! ## use-room hook: posts query and comment threading -/

/-- A row of the comments table as selected by loadPosts (created_at in
milliseconds; parent_comment_id null for a top-level comment). -/
structure Comment where
  id : String
  post_id : String
  parent_comment_id : Option String
  author_display : String
  content : String
  created_at : Nat
deriving DecidableEq, Repr

/-- The key used for the commentMap lookup of a parent ( '' when null, which
is only looked up behind the truthiness guard). -/
def parentKey (c : Comment) : String := c.parent_comment_id.getD ""

/-- The commentMap node stored under an id: Map.set overwrites, so the node
carries the fields of the last comment in the flat list with that id. -/
def nodeOf (flat : List Comment) (c : Comment) : Comment :=
  ((flat.filter (fun d => d.id == c.id)).getLast?).getD c

/-- The replies array of the commentMap node with id i after organizeComments:
the second pass pushes, in flat-list order, the node of every comment whose
truthy parent_comment_id equals i. (A comment whose parent id is in no node
is pushed nowhere; this function is only consulted at ids of nodes.) -/
def organizeReplies (flat : List Comment) (i : String) : List Comment :=
  (flat.filter (fun c => strTruthy c.parent_comment_id && parentKey c == i)).map (nodeOf flat)

/-- The root array returned by organizeComments: the nodes of the comments
with falsy parent_comment_id, sorted ascending by created_at. -/
def organizeRoots (flat : List Comment) : List Comment :=
  sortByLe (fun a b => decide (a.created_at ≤ b.created_at))
    ((flat.filter (fun c => !(strTruthy c.parent_comment_id))).map (nodeOf flat))

/-- commentMap.get(i) as a lookup in the flat list (first match; ids are
unique in the database). -/
def findById (flat : List Comment) (i : String) : Option Comment :=
  flat.find? (fun c => c.id == i)

/-- Number of occurrences of the id target in the tree hanging from one node,
unfolding replies up to the given depth. The depth flat.length is enough to
unfold everything reachable from a root. -/
def countFrom (flat : List Comment) (target : String) : Nat → Comment → Nat
  | 0, c => if c.id == target then 1 else 0
  | n + 1, c =>
    (if c.id == target then 1 else 0) +
      ((organizeReplies flat c.id).map (countFrom flat target n)).sum

/-- Number of occurrences of the id target in the whole forest returned by
organizeComments. -/
def treeCount (flat : List Comment) (target : String) : Nat :=
  ((organizeRoots flat).map (countFrom flat target flat.length)).sum

/-- The node reached after exactly n steps along parent_comment_id links
(none when a link is falsy or dangles). -/
def upN (flat : List Comment) : Nat → Comment → Option Comment
  | 0, c => some c
  | n + 1, c =>
    if strTruthy c.parent_comment_id then
      match findById flat (parentKey c) with
      | some p => upN flat n p
      | none => none
    else none

/-- Decides whether some node within n upward parent steps of c is x. -/
def upReachB (flat : List Comment) (x : Comment) (n : Nat) (c : Comment) : Bool :=
  (List.range (n + 1)).any (fun k => upN flat k c == some x)

/-- A comment whose chain of parent links terminates at a comment with falsy
parent_comment_id (exactly the comments that end up reachable from the
returned root array). -/
inductive Rooted (flat : List Comment) : Comment → Prop where
  | root (c : Comment) (h : strTruthy c.parent_comment_id = false) : Rooted flat c
  | step (c p : Comment) (h : strTruthy c.parent_comment_id = true)
      (hp : findById flat (parentKey c) = some p) (hr : Rooted flat p) : Rooted flat c

/-- A row of the posts table as selected by loadPosts. -/
structure PostRow where
  id : String
  room_id : String
  author_display : String
  content : String
  pinned : Bool
  created_at : Nat
  deleted_at : Option Nat
deriving DecidableEq, Repr

/-- The posts SELECT row-security policy from the migration:
USING (deleted_at IS NULL). -/
def visiblePosts (table : List PostRow) : List PostRow :=
  table.filter (fun p => p.deleted_at == none)

/-- The loadPosts query: over the rows the policy exposes, filter by room_id,
filter deleted_at is null, order by created_at descending. -/
def loadPostsQuery (table : List PostRow) (roomId : String) : List PostRow :=
  sortByLe (fun a b => decide (b.created_at ≤ a.created_at))
    ((visiblePosts table).filter (fun p => p.room_id == roomId && p.deleted_at == none))

/-! ## post-composer.tsx: handlePost -/

/-- Externally visible outcome of one run of handlePost: the composer content
and selected file names afterwards, how many insert calls were made, and how
many error and success toasts were shown. -/
structure PostComposerOutcome where
  content : String
  files : List String
  insertAttempts : Nat
  errorToasts : Nat
  successToasts : Nat
deriving DecidableEq, Repr

/-- handlePost from post-composer.tsx. uploadResult is the outcome of
uploadSelectedFiles (an Except since a failed upload throws before the
insert); insertFails tells whether the posts insert returns an error. The
composer state (content, files) is cleared only on the success path. -/
def handlePost (content : String) (files : List String)
    (uploadResult : Except String (List String)) (insertFails : Bool) :
    PostComposerOutcome :=
  if (jsTrim content == "") && (files.length == 0) then
    ⟨content, files, 0, 1, 0⟩
  else
    match uploadResult with
    | Except.error _ => ⟨content, files, 0, 1, 0⟩
    | Except.ok _ =>
      if insertFails then
        ⟨content, files, 1, 1, 0⟩
      else
        ⟨"", [], 1, 0, 1⟩

/-- Modelled from the claim wording of C8: the string is four characters
drawn from uppercase A-Z and digits 0-9, then a hyphen, then four more such
characters. -/
def roomCodeSpec (code : String) : Prop :=
  ∃ l₁ l₂ : List Char,
    code.toList = l₁ ++ '-' :: l₂ ∧ l₁.length = 4 ∧ l₂.length = 4 ∧
    ∀ c ∈ l₁ ++ l₂, ('A' ≤ c ∧ c ≤ 'Z') ∨ ('0' ≤ c ∧ c ≤ '9')

/-! ## Permutation facts about the stable sort -/

theorem insertLe_perm {α : Type} (le : α → α → Bool) (x : α) (l : List α) :
    (insertLe le x l).Perm (x :: l) := by
  induction l with
  | nil => simp [insertLe]
  | cons y ys ih =>
    simp only [insertLe]
    split
    · exact ((ih.cons y).trans (List.Perm.swap x y ys))
    · exact List.Perm.refl _

theorem sortByLe_foldl_perm {α : Type} (le : α → α → Bool) :
    ∀ (l acc : List α), (l.foldl (fun a x => insertLe le x a) acc).Perm (acc ++ l) := by
  intro l
  induction l with
  | nil => intro acc; simp
  | cons x xs ih =>
    intro acc
    have h1 := ih (insertLe le x acc)
    have h2 : (insertLe le x acc ++ xs).Perm ((x :: acc) ++ xs) :=
      (insertLe_perm le x acc).append_right xs
    have h3 : ((x :: acc) ++ xs).Perm (acc ++ x :: xs) := by
      simpa using (@List.perm_middle α x acc xs).symm
    exact (h1.trans h2).trans h3

theorem sortByLe_perm {α : Type} (le : α → α → Bool) (l : List α) :
    (sortByLe le l).Perm l := by
  simpa [sortByLe] using sortByLe_foldl_perm le l []

theorem mem_sortByLe {α : Type} {le : α → α → Bool} {l : List α} {a : α} :
    a ∈ sortByLe le l ↔ a ∈ l :=
  (sortByLe_perm le l).mem_iff

/-! ## Claims about room code generation and validation (C5, C8, C9) -/

theorem charAt33_mem (n : Fin 33) : charAt33 n ∈ codeChars.toList := by
  have h : n.val < codeChars.toList.length := by
    have h33 : codeChars.toList.length = 33 := by decide
    rw [h33]
    exact n.isLt
  unfold charAt33
  rw [List.getD_eq_getElem _ _ h]
  exact List.getElem_mem h

theorem generateRoomCode_eq (rand : Nat → Fin 33) :
    generateRoomCode rand =
      String.mk [charAt33 (rand 0), charAt33 (rand 1), charAt33 (rand 2), charAt33 (rand 3),
        '-', charAt33 (rand 4), charAt33 (rand 5), charAt33 (rand 6), charAt33 (rand 7)] :=
  rfl

/-- C5 (amended): every string returned by generateRoomCode consists of eight
characters drawn from the code alphabet with a hyphen separator after the
first four, a string of length nine. -/
theorem generateRoomCode_format (rand : Nat → Fin 33) :
    (generateRoomCode rand).length = 9 ∧
    ∃ cs : List Char, cs.length = 8 ∧ (∀ c ∈ cs, c ∈ codeChars.toList) ∧
      (generateRoomCode rand).toList = cs.take 4 ++ '-' :: cs.drop 4 := by
  constructor
  · rw [generateRoomCode_eq]
    rfl
  · refine ⟨[charAt33 (rand 0), charAt33 (rand 1), charAt33 (rand 2), charAt33 (rand 3),
      charAt33 (rand 4), charAt33 (rand 5), charAt33 (rand 6), charAt33 (rand 7)], rfl, ?_, rfl⟩
    intro c hc
    simp only [List.mem_cons, List.not_mem_nil, or_false] at hc
    rcases hc with h | h | h | h | h | h | h | h <;> (subst h; exact charAt33_mem _)

/-- C5 counterexample: the string returned by generateRoomCode has length 9,
not 8 (the hyphen separator is part of the string). -/
theorem generateRoomCode_length_cex :
    (generateRoomCode (fun _ => (0 : Fin 33))).length = 9 ∧
    (generateRoomCode (fun _ => (0 : Fin 33))).length ≠ 8 := by
  decide

/-- C9: the alphabet of generateRoomCode contains the confusable letter I
(its own comment claims I is excluded), so a run whose draws all pick index 8
returns IIII-IIII, which passes the format check but contains I. -/
theorem generateRoomCode_contains_letter_I :
    generateRoomCode (fun _ => (8 : Fin 33)) = "IIII-IIII" ∧
    'I' ∈ (generateRoomCode (fun _ => (8 : Fin 33))).toList ∧
    isValidRoomCode (generateRoomCode (fun _ => (8 : Fin 33))) = true ∧
    'I' ∈ codeChars.toList := by
  decide

/-! ## Claim C4: an expired room blocks the join at the code step -/

/-- C4: when the fetched room has a non-null expiry_at strictly earlier than
the current time, validateRoomCode shows the Room expired toast, sets no
roomInfo, and stays on the code step. -/
theorem validateRoomCode_expired_blocks (now : Nat) (roomCode : String)
    (rd : RoomDetailsRow) (e : Nat)
    (htrim : jsTrim roomCode ≠ "")
    (hcode : isValidRoomCode roomCode = true)
    (hexp : rd.expiry_at = some e) (hlt : e < now) :
    validateRoomCode now roomCode (some rd) =
      ⟨some "Room expired", none, JoinStep.code⟩ := by
  simp [validateRoomCode, htrim, hcode, hexp, hlt]

theorem validateRoomCode_expired_blocks_witness :
    validateRoomCode 10 "AAAA-2222" (some ⟨"t", none, none, some 5⟩) =
      ⟨some "Room expired", none, JoinStep.code⟩ :=
  validateRoomCode_expired_blocks 10 "AAAA-2222" ⟨"t", none, none, some 5⟩ 5
    (by decide) (by decide) rfl (by decide)

/-! ## Claim C6: soft-deleted posts are hidden from loadPosts -/

/-- C6: a post row whose deleted_at is non-null never appears in the list
produced by the loadPosts query (both the row-security policy and the
client-side filter demand deleted_at null). -/
theorem loadPosts_hides_soft_deleted (table : List PostRow) (roomId : String)
    (p : PostRow) (t : Nat) (h : p.deleted_at = some t) :
    p ∉ loadPostsQuery table roomId := by
  intro hmem
  have h1 : p ∈ (visiblePosts table).filter
      (fun q => q.room_id == roomId && q.deleted_at == none) :=
    mem_sortByLe.mp hmem
  have h2 := (List.mem_filter.mp h1).2
  rw [Bool.and_eq_true] at h2
  have h3 := h2.2
  rw [h] at h3
  simp at h3

theorem loadPosts_hides_soft_deleted_witness :
    (⟨"p1", "r1", "a", "hi", false, 3, some 5⟩ : PostRow) ∉
      loadPostsQuery [⟨"p1", "r1", "a", "hi", false, 3, some 5⟩] "r1" :=
  loadPosts_hides_soft_deleted _ "r1" _ 5 rfl

/-! ## Claim C7: a failed post insert leaves the composer untouched -/

/-- C7: when the posts insert fails (uploads having succeeded), handlePost
leaves the composer content and selected files unchanged, shows exactly one
error notification, shows no success notification, and makes exactly one
insert attempt (no retry). -/
theorem handlePost_failure_atomic (content : String) (files : List String)
    (media : List String)
    (hne : ¬(jsTrim content = "" ∧ files = [])) :
    handlePost content files (Except.ok media) true =
      ⟨content, files, 1, 1, 0⟩ := by
  unfold handlePost
  have hb : ((jsTrim content == "") && (files.length == 0)) = false := by
    rcases files with _ | ⟨f, fs⟩
    · have hc : ¬ jsTrim content = "" := fun hc => hne ⟨hc, rfl⟩
      simp [hc]
    · simp
  simp [hb]

theorem handlePost_failure_atomic_witness :
    handlePost "hello" [] (Except.ok []) true = ⟨"hello", [], 1, 1, 0⟩ :=
  handlePost_failure_atomic "hello" [] [] (by decide)

/-! ## Claim C2: the password gate of joinRoom -/

/-- C2 (amended): for a room whose stored password_hash is non-null and
non-empty, when the user supplies a non-empty password, joinRoom stores a
session or calls onJoinSuccess only if hashString of that password equals the
stored hash; and if the join reaches the password check (non-empty formatted
name and not stopped by the roomInfo password-required guard), a mismatch
yields the Incorrect password toast and no session. -/
theorem joinRoom_password_gate (hashFn : String → String) (bans : List BanRow)
    (now : Nat) (roomCode displayName password : String)
    (roomInfo : Option RoomInfo) (rd : RoomAuthRow) (h : String)
    (hhash : rd.password_hash = some h) (hne : h ≠ "") (hpw : password ≠ "") :
    ((joinRoom hashFn bans now roomCode displayName password roomInfo (some rd)).sessionStored ≠ none ∨
        (joinRoom hashFn bans now roomCode displayName password roomInfo (some rd)).joinSuccessCalled = true →
      hashFn password = h) ∧
    (formatDisplayName displayName ≠ "" →
      ¬((roomInfo.map RoomInfo.requiresPassword).getD false = true ∧ jsTrim password = "") →
      hashFn password ≠ h →
      joinRoom hashFn bans now roomCode displayName password roomInfo (some rd) =
        ⟨some "Incorrect password", none, false⟩) := by
  have htr : strTruthy (some h) = true := by
    simpa [strTruthy] using hne
  by_cases hn : formatDisplayName displayName = ""
  · have hred : joinRoom hashFn bans now roomCode displayName password roomInfo (some rd) =
        ⟨some "Display name required", none, false⟩ := by
      simp [joinRoom, hn]
    constructor
    · intro hor
      rw [hred] at hor
      rcases hor with ha | hb
      · simp at ha
      · simp at hb
    · intro hfm
      exact absurd hn hfm
  · by_cases hReq : (roomInfo.map RoomInfo.requiresPassword).getD false = true ∧ jsTrim password = ""
    · have hred : joinRoom hashFn bans now roomCode displayName password roomInfo (some rd) =
          ⟨some "Password required", none, false⟩ := by
        simp [joinRoom, hn, hReq.1, hReq.2]
      constructor
      · intro hor
        rw [hred] at hor
        rcases hor with ha | hb
        · simp at ha
        · simp at hb
      · intro _ hnot
        exact absurd hReq hnot
    · have hguard : ((roomInfo.map RoomInfo.requiresPassword).getD false && (jsTrim password == "")) = false := by
        by_cases hA : (roomInfo.map RoomInfo.requiresPassword).getD false = true
        · have hB : jsTrim password ≠ "" := fun hb => hReq ⟨hA, hb⟩
          simp [hA, hB]
        · rw [Bool.not_eq_true] at hA
          simp [hA]
      by_cases hmatch : hashFn password = h
      · constructor
        · intro _
          exact hmatch
        · intro _ _ hne2
          exact absurd hmatch hne2
      · have hred : joinRoom hashFn bans now roomCode displayName password roomInfo (some rd) =
            ⟨some "Incorrect password", none, false⟩ := by
          simp [joinRoom, hn, hguard, htr, hpw, hhash, hmatch]
        constructor
        · intro hor
          rw [hred] at hor
          rcases hor with ha | hb
          · simp at ha
          · simp at hb
        · intro _ _ _
          exact hred

theorem joinRoom_password_gate_witness :
    (formatDisplayName "alice" ≠ "" ∧
      ¬(((some (⟨"t", none, true⟩ : RoomInfo)).map RoomInfo.requiresPassword).getD false = true ∧
          jsTrim "wrong" = "") ∧
      (fun s => String.append "#" s) "wrong" ≠ "#secret") ∧
    joinRoom (fun s => String.append "#" s) [] 0 "AAAA-2222" "alice" "wrong"
        (some ⟨"t", none, true⟩) (some ⟨"rid", some "#secret"⟩) =
      ⟨some "Incorrect password", none, false⟩ :=
  ⟨⟨by decide, by decide, by decide⟩,
    (joinRoom_password_gate (fun s => String.append "#" s) [] 0 "AAAA-2222" "alice" "wrong"
      (some ⟨"t", none, true⟩) ⟨"rid", some "#secret"⟩ "#secret" rfl (by decide) (by decide)).2
      (by decide) (by decide) (by decide)⟩

/-- C2 counterexample: with a non-null stored hash, a stale roomInfo that does
not flag the password requirement, and an empty supplied password, joinRoom
skips the hash comparison entirely and stores the session even though the
hash of the supplied password differs from the stored one. -/
theorem joinRoom_empty_password_cex :
    joinRoom (fun s => String.append "#" s) [] 0 "AAAA-2222" "alice" ""
        (some ⟨"t", none, false⟩) (some ⟨"rid", some "#secret"⟩) =
      ⟨some "Joined room successfully!", some ⟨"AAAA-2222", "alice"⟩, true⟩ ∧
    (fun s => String.append "#" s) "" ≠ "#secret" ∧
    (some "#secret" : Option String) ≠ none := by
  decide

/-! ## Claim C3: a banned display name and the join paths -/

/-- C3 (amended): on the JoinRoomModal path, an active ban row for the fetched
room and the formatted display name means joinRoom stores no session and
never calls onJoinSuccess. (The RoomPage inline join gate, by contrast,
stores a session without consulting bans; see the counterexample.) -/
theorem joinRoom_banned_blocks (hashFn : String → String) (bans : List BanRow)
    (now : Nat) (roomCode displayName password : String)
    (roomInfo : Option RoomInfo) (rd : RoomAuthRow)
    (hban : isDisplayNameBanned bans now rd.id (formatDisplayName displayName) = true) :
    (joinRoom hashFn bans now roomCode displayName password roomInfo (some rd)).sessionStored = none ∧
    (joinRoom hashFn bans now roomCode displayName password roomInfo (some rd)).joinSuccessCalled = false := by
  by_cases hn : formatDisplayName displayName = ""
  · simp [joinRoom, hn]
  · by_cases hg : ((roomInfo.map RoomInfo.requiresPassword).getD false && (jsTrim password == "")) = true
    · simp [joinRoom, hn, hg]
    · rw [Bool.not_eq_true] at hg
      by_cases hpt : (strTruthy rd.password_hash && password != "") = true
      · by_cases hmm : (hashFn password != rd.password_hash.getD "") = true
        · simp [joinRoom, hn, hg, hpt, hmm]
        · rw [Bool.not_eq_true] at hmm
          simp [joinRoom, joinAfterPassword, hn, hg, hpt, hmm, hban]
      · rw [Bool.not_eq_true] at hpt
        simp [joinRoom, joinAfterPassword, hn, hg, hpt, hban]

theorem joinRoom_banned_blocks_witness :
    (joinRoom (fun s => s) [⟨"rid", "Mallory", none⟩] 0 "AAAA-2222" "Mallory" ""
        none (some ⟨"rid", none⟩)).sessionStored = none ∧
    (joinRoom (fun s => s) [⟨"rid", "Mallory", none⟩] 0 "AAAA-2222" "Mallory" ""
        none (some ⟨"rid", none⟩)).joinSuccessCalled = false :=
  joinRoom_banned_blocks (fun s => s) [⟨"rid", "Mallory", none⟩] 0 "AAAA-2222" "Mallory" ""
    none ⟨"rid", none⟩ (by decide)

/-- C3 counterexample: the RoomPage inline join gate is a join path of the
application that stores a session for a display name that
isDisplayNameBanned reports as banned in the room. -/
theorem inlineJoinGate_ignores_bans_cex :
    isDisplayNameBanned [⟨"rid", "Mallory", none⟩] 0 "rid" (formatDisplayName "Mallory") = true ∧
    (inlineJoinGate "AAAA-2222" "Mallory").sessionStored = some ⟨"AAAA-2222", "Mallory"⟩ := by
  decide

/-! ## Claim C8: the room code format check -/

theorem isCodeChar_iff (c : Char) :
    isCodeChar c = true ↔ ('A' ≤ c ∧ c ≤ 'Z') ∨ ('0' ≤ c ∧ c ≤ '9') := by
  simp [isCodeChar]

theorem validCodeList_iff (l : List Char) :
    validCodeList l = true ↔
      ∃ l₁ l₂ : List Char, l = l₁ ++ '-' :: l₂ ∧ l₁.length = 4 ∧ l₂.length = 4 ∧
        ∀ c ∈ l₁ ++ l₂, ('A' ≤ c ∧ c ≤ 'Z') ∨ ('0' ≤ c ∧ c ≤ '9') := by
  constructor
  · intro hv
    rcases l with _ | ⟨a, l⟩; · simp [validCodeList] at hv
    rcases l with _ | ⟨b, l⟩; · simp [validCodeList] at hv
    rcases l with _ | ⟨c0, l⟩; · simp [validCodeList] at hv
    rcases l with _ | ⟨d, l⟩; · simp [validCodeList] at hv
    rcases l with _ | ⟨e0, l⟩; · simp [validCodeList] at hv
    rcases l with _ | ⟨f, l⟩; · simp [validCodeList] at hv
    rcases l with _ | ⟨g, l⟩; · simp [validCodeList] at hv
    rcases l with _ | ⟨h0, l⟩; · simp [validCodeList] at hv
    rcases l with _ | ⟨i, l⟩; · simp [validCodeList] at hv
    rcases l with _ | ⟨j, l⟩
    · simp only [validCodeList, Bool.and_eq_true, beq_iff_eq, isCodeChar_iff] at hv
      obtain ⟨⟨⟨⟨⟨⟨⟨⟨ha, hb⟩, hc⟩, hd⟩, he⟩, hf⟩, hg⟩, hh⟩, hi⟩ := hv
      subst he
      refine ⟨[a, b, c0, d], [f, g, h0, i], rfl, rfl, rfl, ?_⟩
      intro x hx
      simp only [List.mem_append, List.mem_cons, List.not_mem_nil, or_false] at hx
      rcases hx with (h1 | h1 | h1 | h1) | (h1 | h1 | h1 | h1) <;> subst h1 <;> assumption
    · simp [validCodeList] at hv
  · rintro ⟨l₁, l₂, heq, h1, h2, hall⟩
    rcases l₁ with _ | ⟨a, l₁⟩; · simp at h1
    rcases l₁ with _ | ⟨b, l₁⟩; · simp at h1
    rcases l₁ with _ | ⟨c0, l₁⟩; · simp at h1
    rcases l₁ with _ | ⟨d, l₁⟩; · simp at h1
    rcases l₁ with _ | ⟨x, l₁⟩
    swap; · simp only [List.length_cons] at h1; omega
    rcases l₂ with _ | ⟨f, l₂⟩; · simp at h2
    rcases l₂ with _ | ⟨g, l₂⟩; · simp at h2
    rcases l₂ with _ | ⟨h0, l₂⟩; · simp at h2
    rcases l₂ with _ | ⟨i, l₂⟩; · simp at h2
    rcases l₂ with _ | ⟨y, l₂⟩
    swap; · simp only [List.length_cons] at h2; omega
    subst heq
    have pa := hall a (by simp)
    have pb := hall b (by simp)
    have pc := hall c0 (by simp)
    have pd := hall d (by simp)
    have pf := hall f (by simp)
    have pg := hall g (by simp)
    have ph := hall h0 (by simp)
    have pi2 := hall i (by simp)
    simp [validCodeList, isCodeChar_iff, pa, pb, pc, pd, pf, pg, ph, pi2]

/-- C8: isValidRoomCode returns true exactly on strings of four characters in
A-Z or 0-9, a hyphen, and four more such characters; and every string it
rejects is stopped by the join flow's code step (no roomInfo set, step stays
on code). -/
theorem isValidRoomCode_spec (code : String) :
    (isValidRoomCode code = true ↔ roomCodeSpec code) ∧
    (∀ now roomFetch, isValidRoomCode code = false →
      (validateRoomCode now code roomFetch).roomInfoSet = none ∧
      (validateRoomCode now code roomFetch).step = JoinStep.code) := by
  constructor
  · exact validCodeList_iff code.toList
  · intro now roomFetch hv
    unfold validateRoomCode
    by_cases ht : jsTrim code == ""
    · simp [ht]
    · simp [ht, hv]

theorem isValidRoomCode_spec_witness :
    roomCodeSpec "ABCD-1234" ∧
    (validateRoomCode 0 "AB" none).roomInfoSet = none ∧
    (validateRoomCode 0 "AB" none).step = JoinStep.code :=
  ⟨(isValidRoomCode_spec "ABCD-1234").1.mp (by decide),
    (isValidRoomCode_spec "AB").2 0 none (by decide)⟩

/-! ## Claim C1: depth of the organizeComments forest -/

theorem nodeOf_id (flat : List Comment) (c : Comment) : (nodeOf flat c).id = c.id := by
  unfold nodeOf
  cases hl : (flat.filter (fun d => d.id == c.id)).getLast? with
  | none => rfl
  | some a =>
    have ha : a ∈ flat.filter (fun d => d.id == c.id) := by
      rcases List.getLast?_eq_some_iff.mp hl with ⟨ys, hys⟩
      rw [hys]
      simp
    have hpred := (List.mem_filter.mp ha).2
    rw [beq_iff_eq] at hpred
    simpa using hpred

/-- C1 (amended): when every non-null parent reference in the flat list
points at a comment that is itself a root (null parent_comment_id), the
forest built by organizeComments is one level deep: every comment in a root
comment's replies list has an empty replies list. -/
theorem organizeComments_single_level (flat : List Comment)
    (hp : ∀ c ∈ flat, ∀ p ∈ flat, c.parent_comment_id = some p.id →
      strTruthy p.parent_comment_id = false) :
    ∀ r ∈ organizeRoots flat, ∀ y ∈ organizeReplies flat r.id,
      organizeReplies flat y.id = [] := by
  intro r hr y hy
  rcases List.mem_map.mp hy with ⟨y1, hy1, rfl⟩
  have hy1f := List.mem_filter.mp hy1
  have hy1mem := hy1f.1
  have hcond := hy1f.2
  rw [Bool.and_eq_true] at hcond
  have hty1 : strTruthy y1.parent_comment_id = true := hcond.1
  have hfilters : flat.filter
      (fun c => strTruthy c.parent_comment_id && parentKey c == (nodeOf flat y1).id) = [] := by
    rw [List.filter_eq_nil_iff]
    intro c hc hcontra
    rw [Bool.and_eq_true] at hcontra
    have htc : strTruthy c.parent_comment_id = true := hcontra.1
    have hkey2 : parentKey c = y1.id := by
      have hkey := hcontra.2
      rw [beq_iff_eq, nodeOf_id] at hkey
      exact hkey
    have hcp : c.parent_comment_id = some y1.id := by
      cases hcpo : c.parent_comment_id with
      | none => rw [hcpo] at htc; simp [strTruthy] at htc
      | some s =>
        have hs : s = y1.id := by
          have hpk : parentKey c = s := by simp [parentKey, hcpo]
          rw [← hpk, hkey2]
        rw [hs]
    have hfalse := hp c hc y1 hy1mem hcp
    rw [hfalse] at hty1
    exact Bool.false_ne_true hty1
  unfold organizeReplies
  rw [hfilters]
  rfl

theorem organizeComments_single_level_witness :
    organizeReplies [⟨"a", "p", none, "u", "x", 1⟩, ⟨"b", "p", some "a", "u", "x", 2⟩]
      (Comment.mk "b" "p" (some "a") "u" "x" 2).id = [] :=
  organizeComments_single_level _ (by decide) ⟨"a", "p", none, "u", "x", 1⟩ (by decide)
    ⟨"b", "p", some "a", "u", "x", 2⟩ (by decide)

/-- C1 counterexample: a flat list with a three-link chain a ← b ← c produces
a forest of depth two: the root a has b in its replies, and b's replies hold
c, so a comment in a root's replies has a non-empty replies list. -/
theorem organizeComments_depth_cex :
    organizeRoots [⟨"a", "p", none, "u", "x", 1⟩, ⟨"b", "p", some "a", "u", "x", 2⟩,
        ⟨"c", "p", some "b", "u", "x", 3⟩] =
      [⟨"a", "p", none, "u", "x", 1⟩] ∧
    organizeReplies [⟨"a", "p", none, "u", "x", 1⟩, ⟨"b", "p", some "a", "u", "x", 2⟩,
        ⟨"c", "p", some "b", "u", "x", 3⟩] (Comment.mk "a" "p" none "u" "x" 1).id =
      [⟨"b", "p", some "a", "u", "x", 2⟩] ∧
    organizeReplies [⟨"a", "p", none, "u", "x", 1⟩, ⟨"b", "p", some "a", "u", "x", 2⟩,
        ⟨"c", "p", some "b", "u", "x", 3⟩] (Comment.mk "b" "p" (some "a") "u" "x" 2).id ≠
      [] := by
  decide

/-! ## Claim C10: parent chains and the occurrence count in the forest -/

theorem findById_mem {flat : List Comment} {i : String} {p : Comment}
    (h : findById flat i = some p) : p ∈ flat :=
  List.mem_of_find?_eq_some (by simpa [findById] using h)

theorem findById_id {flat : List Comment} {i : String} {p : Comment}
    (h : findById flat i = some p) : p.id = i := by
  have hfind : List.find? (fun c : Comment => c.id == i) flat = some p := by
    simpa [findById] using h
  have hp := List.find?_some hfind
  simp only [beq_iff_eq] at hp
  exact hp

theorem upN_add (flat : List Comment) (k m : Nat) :
    ∀ c, upN flat (k + m) c = (upN flat k c).bind (fun y => upN flat m y) := by
  induction k with
  | zero => intro c; simp [upN]
  | succ k ih =>
    intro c
    have harith : k + 1 + m = (k + m) + 1 := by omega
    rw [harith]
    simp only [upN]
    by_cases ht : strTruthy c.parent_comment_id = true
    · rw [if_pos ht, if_pos ht]
      cases hf : findById flat (parentKey c) with
      | none => simp
      | some p => exact ih p
    · rw [if_neg ht, if_neg ht]
      simp

theorem upN_mem (flat : List Comment) (k : Nat) :
    ∀ c x, c ∈ flat → upN flat k c = some x → x ∈ flat := by
  induction k with
  | zero =>
    intro c x hc h
    simp only [upN, Option.some.injEq] at h
    rwa [← h]
  | succ k ih =>
    intro c x hc h
    simp only [upN] at h
    by_cases ht : strTruthy c.parent_comment_id = true
    · rw [if_pos ht] at h
      cases hf : findById flat (parentKey c) with
      | none => rw [hf] at h; simp at h
      | some p =>
        rw [hf] at h
        exact ih p x (findById_mem hf) h
    · rw [if_neg ht] at h
      simp at h

theorem rooted_upN (flat : List Comment) (k : Nat) :
    ∀ c x, Rooted flat c → upN flat k c = some x → Rooted flat x := by
  induction k with
  | zero =>
    intro c x hr h
    simp only [upN, Option.some.injEq] at h
    rwa [← h]
  | succ k ih =>
    intro c x hr h
    simp only [upN] at h
    by_cases ht : strTruthy c.parent_comment_id = true
    · rw [if_pos ht] at h
      cases hf : findById flat (parentKey c) with
      | none => rw [hf] at h; simp at h
      | some p =>
        rw [hf] at h
        cases hr with
        | root _ hfalse => rw [ht] at hfalse; simp at hfalse
        | step _ p2 h2 hp2 hr2 =>
          rw [hp2] at hf
          injection hf with hpp
          exact ih p x (hpp ▸ hr2) h
    · rw [if_neg ht] at h
      simp at h

theorem rooted_of_upN_falsy (flat : List Comment) (k : Nat) :
    ∀ c a, upN flat k c = some a → strTruthy a.parent_comment_id = false →
      Rooted flat c := by
  induction k with
  | zero =>
    intro c a h hf
    simp only [upN, Option.some.injEq] at h
    subst h
    exact Rooted.root _ hf
  | succ k ih =>
    intro c a h hf
    simp only [upN] at h
    by_cases ht : strTruthy c.parent_comment_id = true
    · rw [if_pos ht] at h
      cases hfind : findById flat (parentKey c) with
      | none => rw [hfind] at h; simp at h
      | some p =>
        rw [hfind] at h
        exact Rooted.step c p ht hfind (ih p a h hf)
    · rw [if_neg ht] at h
      simp at h

theorem upN_falsy_none (flat : List Comment) (m : Nat) (a : Comment)
    (hf : strTruthy a.parent_comment_id = false) : upN flat (m + 1) a = none := by
  simp [upN, hf]

theorem upN_no_cycle (flat : List Comment) {c : Comment} (hr : Rooted flat c) :
    ∀ k, upN flat (k + 1) c ≠ some c := by
  induction hr with
  | root c0 hf =>
    intro k h
    rw [upN_falsy_none flat k c0 hf] at h
    exact Option.noConfusion h
  | step c0 p ht hp hr2 ih =>
    intro k h
    have hstep : upN flat (k + 1) c0 = upN flat k p := by
      simp only [upN]
      rw [if_pos ht, hp]
    rw [hstep] at h
    have h1 : upN flat 1 c0 = some p := by
      simp only [upN]
      rw [if_pos ht, hp]
    have hcontra : upN flat (k + 1) p = some p := by
      rw [upN_add flat k 1 p, h]
      simpa using h1
    exact ih k hcontra

theorem comment_id_inj {flat : List Comment} (hn : (flat.map Comment.id).Nodup)
    {a b : Comment} (ha : a ∈ flat) (hb : b ∈ flat) (h : a.id = b.id) : a = b :=
  List.inj_on_of_nodup_map hn ha hb h

theorem filter_id_single {flat : List Comment} (hn : (flat.map Comment.id).Nodup)
    {c : Comment} (hc : c ∈ flat) :
    flat.filter (fun d => d.id == c.id) = [c] := by
  induction flat with
  | nil => cases hc
  | cons a as ih =>
    rw [List.map_cons, List.nodup_cons] at hn
    rcases List.mem_cons.mp hc with rfl | hmem
    · have hself : (c.id == c.id) = true := by simp
      have hrest : as.filter (fun d => d.id == c.id) = [] := by
        rw [List.filter_eq_nil_iff]
        intro d hd hcon
        rw [beq_iff_eq] at hcon
        exact hn.1 (hcon ▸ List.mem_map_of_mem Comment.id hd)
      simp [List.filter_cons, hself, hrest]
    · have hne : (a.id == c.id) = false := by
        rw [beq_eq_false_iff_ne]
        intro he
        exact hn.1 (he ▸ List.mem_map_of_mem Comment.id hmem)
      simp [List.filter_cons, hne, ih hn.2 hmem]

theorem nodeOf_self {flat : List Comment} (hn : (flat.map Comment.id).Nodup)
    {c : Comment} (hc : c ∈ flat) : nodeOf flat c = c := by
  unfold nodeOf
  rw [filter_id_single hn hc]
  rfl

theorem findById_self {flat : List Comment} (hn : (flat.map Comment.id).Nodup)
    {c : Comment} (hc : c ∈ flat) : findById flat c.id = some c := by
  cases hfind : findById flat c.id with
  | none =>
    have hnone : ∀ x ∈ flat, ¬(fun d : Comment => d.id == c.id) x = true :=
      List.find?_eq_none.mp (by simpa [findById] using hfind)
    have := hnone c hc
    simp at this
  | some p =>
    have hpmem := findById_mem hfind
    have hpid := findById_id hfind
    rw [comment_id_inj hn hpmem hc hpid]

theorem organizeReplies_eq_filter {flat : List Comment} (hn : (flat.map Comment.id).Nodup)
    (i : String) :
    organizeReplies flat i =
      flat.filter (fun c => strTruthy c.parent_comment_id && parentKey c == i) := by
  unfold organizeReplies
  have hcong : ∀ y ∈ flat.filter (fun c => strTruthy c.parent_comment_id && parentKey c == i),
      nodeOf flat y = y := fun y hy => nodeOf_self hn (List.mem_filter.mp hy).1
  rw [List.map_congr_left hcong]
  exact List.map_id' _

theorem mem_organizeReplies {flat : List Comment} (hn : (flat.map Comment.id).Nodup)
    {i : String} {y : Comment} :
    y ∈ organizeReplies flat i ↔
      y ∈ flat ∧ strTruthy y.parent_comment_id = true ∧ parentKey y = i := by
  rw [organizeReplies_eq_filter hn, List.mem_filter, Bool.and_eq_true, beq_iff_eq]

theorem upReachB_iff (flat : List Comment) (x : Comment) (n : Nat) (c : Comment) :
    upReachB flat x n c = true ↔ ∃ k, k ≤ n ∧ upN flat k c = some x := by
  simp [upReachB, List.any_eq_true, List.mem_range, Nat.lt_succ_iff]

theorem sum_map_ite_countP {α : Type} (p : α → Bool) (l : List α) :
    (l.map (fun y => if p y = true then (1 : Nat) else 0)).sum = l.countP p := by
  induction l with
  | nil => simp
  | cons a as ih =>
    rw [List.map_cons, List.sum_cons, ih, List.countP_cons]
    by_cases hp : p a = true
    · simp [hp, Nat.add_comm]
    · simp [hp]

theorem filter_eq_single {α : Type} {l : List α} {p : α → Bool} {w : α}
    (hnd : l.Nodup) (hw : w ∈ l) (hpw : p w = true)
    (huniq : ∀ z ∈ l, p z = true → z = w) : l.filter p = [w] := by
  have hmemf : w ∈ l.filter p := List.mem_filter.mpr ⟨hw, hpw⟩
  have hndf : (l.filter p).Nodup := List.Nodup.filter p hnd
  have hall : ∀ z ∈ l.filter p, z = w := by
    intro z hz
    have hzf := List.mem_filter.mp hz
    exact huniq z hzf.1 hzf.2
  cases hf : l.filter p with
  | nil => rw [hf] at hmemf; cases hmemf
  | cons a t =>
    rw [hf] at hall hmemf hndf
    have ha : a = w := hall a (List.mem_cons_self a t)
    subst ha
    cases t with
    | nil => rfl
    | cons b t2 =>
      have hb : b = a := hall b (by simp)
      rw [List.nodup_cons] at hndf
      exact absurd (hb ▸ List.mem_cons_self b t2) hndf.1

theorem countP_eq_one_of_unique {α : Type} {l : List α} {p : α → Bool} {w : α}
    (hnd : l.Nodup) (hw : w ∈ l) (hpw : p w = true)
    (huniq : ∀ z ∈ l, p z = true → z = w) : l.countP p = 1 := by
  rw [List.countP_eq_length_filter, filter_eq_single hnd hw hpw huniq]
  rfl

theorem rooted_replies {flat : List Comment} (hn : (flat.map Comment.id).Nodup)
    {x y : Comment} (hx : x ∈ flat) (hrx : Rooted flat x)
    (hy : y ∈ organizeReplies flat x.id) : Rooted flat y := by
  rcases (mem_organizeReplies hn).mp hy with ⟨hym, hty, hkey⟩
  have hfind : findById flat (parentKey y) = some x := by
    rw [hkey]
    exact findById_self hn hx
  exact Rooted.step y x hty hfind hrx

theorem upN_one_of_child {flat : List Comment} (hn : (flat.map Comment.id).Nodup)
    {x y : Comment} (hx : x ∈ flat) (hty : strTruthy y.parent_comment_id = true)
    (hkey : parentKey y = x.id) : upN flat 1 y = some x := by
  simp only [upN]
  rw [if_pos hty, hkey, findById_self hn hx]

theorem countFrom_eq_indicator {flat : List Comment} (hn : (flat.map Comment.id).Nodup)
    {c : Comment} (hc : c ∈ flat) :
    ∀ n x, x ∈ flat → Rooted flat x →
      countFrom flat c.id n x = if upReachB flat x n c = true then 1 else 0 := by
  intro n
  induction n with
  | zero =>
    intro x hx hrx
    simp only [countFrom]
    by_cases hid : x.id = c.id
    · have hxc : x = c := comment_id_inj hn hx hc hid
      have hub : upReachB flat x 0 c = true := by
        rw [upReachB_iff]
        exact ⟨0, Nat.le_refl 0, by simp [upN, hxc]⟩
      rw [if_pos (by rw [beq_iff_eq]; exact hid), if_pos hub]
    · have hub : upReachB flat x 0 c = false := by
        rw [Bool.eq_false_iff]
        intro hcon
        rcases (upReachB_iff flat x 0 c).mp hcon with ⟨k, hk, hup⟩
        have hk0 : k = 0 := Nat.le_zero.mp hk
        subst hk0
        simp only [upN, Option.some.injEq] at hup
        exact hid (by rw [← hup])
      rw [if_neg (by rw [beq_iff_eq]; exact hid), if_neg (by simp [hub])]
  | succ n ih =>
    intro x hx hrx
    simp only [countFrom]
    have hchild : ∀ y ∈ organizeReplies flat x.id,
        countFrom flat c.id n y = if upReachB flat y n c = true then 1 else 0 := by
      intro y hy
      rcases (mem_organizeReplies hn).mp hy with ⟨hym, hty, hkey⟩
      exact ih y hym (rooted_replies hn hx hrx hy)
    rw [List.map_congr_left hchild,
      sum_map_ite_countP (fun y => upReachB flat y n c) (organizeReplies flat x.id)]
    by_cases hid : x.id = c.id
    · have hxc : x = c := comment_id_inj hn hx hc hid
      subst hxc
      have hcount0 : (organizeReplies flat x.id).countP (fun y => upReachB flat y n x) = 0 := by
        rw [List.countP_eq_zero]
        intro y hy hcon
        rcases (mem_organizeReplies hn).mp hy with ⟨hym, hty, hkey⟩
        rcases (upReachB_iff flat y n x).mp hcon with ⟨k, hk, hup⟩
        have h1 : upN flat 1 y = some x := upN_one_of_child hn hx hty hkey
        have hcycle : upN flat (k + 1) x = some x := by
          rw [upN_add flat k 1, hup]
          simpa using h1
        exact upN_no_cycle flat hrx k hcycle
      have hub : upReachB flat x (n + 1) x = true := by
        rw [upReachB_iff]
        exact ⟨0, Nat.zero_le _, rfl⟩
      simp [hcount0, hub]
    · have hbeq : (x.id == c.id) = false := by
        rw [beq_eq_false_iff_ne]
        exact hid
      by_cases hreach : upReachB flat x (n + 1) c = true
      · rcases (upReachB_iff flat x (n + 1) c).mp hreach with ⟨k, hk, hup⟩
        cases k with
        | zero =>
          simp only [upN, Option.some.injEq] at hup
          exact absurd (congrArg Comment.id hup.symm) hid
        | succ j =>
          have hdecomp : (upN flat j c).bind (fun y => upN flat 1 y) = some x := by
            rw [← upN_add flat j 1]
            exact hup
          cases hw : upN flat j c with
          | none => rw [hw] at hdecomp; simp at hdecomp
          | some w =>
            rw [hw, Option.some_bind] at hdecomp
            have hwmem : w ∈ flat := upN_mem flat j c w hc hw
            have hwt : strTruthy w.parent_comment_id = true := by
              by_contra hwt2
              rw [Bool.not_eq_true] at hwt2
              rw [upN_falsy_none flat 0 w hwt2] at hdecomp
              exact Option.noConfusion hdecomp
            have hwfind : findById flat (parentKey w) = some x := by
              simp only [upN] at hdecomp
              rw [if_pos hwt] at hdecomp
              cases hf2 : findById flat (parentKey w) with
              | none => rw [hf2] at hdecomp; simp at hdecomp
              | some q =>
                rw [hf2] at hdecomp
                simp only [Option.some.injEq] at hdecomp
                exact congrArg some hdecomp
            have hwkey : parentKey w = x.id := (findById_id hwfind).symm
            have h1w : upN flat 1 w = some x := upN_one_of_child hn hx hwt hwkey
            have hwchild : w ∈ organizeReplies flat x.id :=
              (mem_organizeReplies hn).mpr ⟨hwmem, hwt, hwkey⟩
            have hwreach : upReachB flat w n c = true := by
              rw [upReachB_iff]
              exact ⟨j, Nat.le_of_succ_le_succ hk, hw⟩
            have huniq : ∀ z ∈ organizeReplies flat x.id,
                (fun y => upReachB flat y n c) z = true → z = w := by
              intro z hz hzr
              rcases (mem_organizeReplies hn).mp hz with ⟨hzm, hzt, hzkey⟩
              have h1z : upN flat 1 z = some x := upN_one_of_child hn hx hzt hzkey
              rcases (upReachB_iff flat z n c).mp hzr with ⟨k2, hk2, hup2⟩
              rcases Nat.le_total k2 j with hle | hle
              · have hsplit : upN flat (k2 + (j - k2)) c = some w := by
                  rw [Nat.add_sub_cancel' hle]
                  exact hw
                rw [upN_add flat k2 (j - k2), hup2, Option.some_bind] at hsplit
                cases hd : j - k2 with
                | zero =>
                  rw [hd] at hsplit
                  simp only [upN, Option.some.injEq] at hsplit
                  exact hsplit
                | succ m =>
                  rw [hd] at hsplit
                  have hm : upN flat (1 + m) z = some w := by
                    rw [Nat.add_comm]
                    exact hsplit
                  rw [upN_add flat 1 m, h1z, Option.some_bind] at hm
                  have hcyc : upN flat (m + 1) x = some x := by
                    rw [upN_add flat m 1, hm, Option.some_bind]
                    exact h1w
                  exact absurd hcyc (upN_no_cycle flat hrx m)
              · have hsplit : upN flat (j + (k2 - j)) c = some z := by
                  rw [Nat.add_sub_cancel' hle]
                  exact hup2
                rw [upN_add flat j (k2 - j), hw, Option.some_bind] at hsplit
                cases hd : k2 - j with
                | zero =>
                  rw [hd] at hsplit
                  simp only [upN, Option.some.injEq] at hsplit
                  exact hsplit.symm
                | succ m =>
                  rw [hd] at hsplit
                  have hm : upN flat (1 + m) w = some z := by
                    rw [Nat.add_comm]
                    exact hsplit
                  rw [upN_add flat 1 m, h1w, Option.some_bind] at hm
                  have hcyc : upN flat (m + 1) x = some x := by
                    rw [upN_add flat m 1, hm, Option.some_bind]
                    exact h1z
                  exact absurd hcyc (upN_no_cycle flat hrx m)
            have hnodup : (organizeReplies flat x.id).Nodup := by
              rw [organizeReplies_eq_filter hn]
              exact List.Nodup.filter _ (List.Nodup.of_map Comment.id hn)
            have hcp : (organizeReplies flat x.id).countP (fun y => upReachB flat y n c) = 1 :=
              countP_eq_one_of_unique hnodup hwchild hwreach huniq
            simp [hbeq, hcp, hreach]
      · have hcount0 : (organizeReplies flat x.id).countP (fun y => upReachB flat y n c) = 0 := by
          rw [List.countP_eq_zero]
          intro y hy hcon
          rcases (mem_organizeReplies hn).mp hy with ⟨hym, hty, hkey⟩
          rcases (upReachB_iff flat y n c).mp hcon with ⟨k, hk, hup⟩
          have h1 : upN flat 1 y = some x := upN_one_of_child hn hx hty hkey
          have hx1 : upN flat (k + 1) c = some x := by
            rw [upN_add flat k 1, hup, Option.some_bind]
            exact h1
          exact hreach ((upReachB_iff flat x (n + 1) c).mpr ⟨k + 1, Nat.succ_le_succ hk, hx1⟩)
        simp [hbeq, hcount0, hreach]

theorem upN_some_of_le (flat : List Comment) (k i : Nat) (c a : Comment)
    (hk : upN flat k c = some a) (hi : i ≤ k) : ∃ v, upN flat i c = some v := by
  have hsplit : upN flat (i + (k - i)) c = some a := by
    rw [Nat.add_sub_cancel' hi]
    exact hk
  rw [upN_add flat i (k - i)] at hsplit
  cases hv : upN flat i c with
  | none => rw [hv] at hsplit; simp at hsplit
  | some v => exact ⟨v, rfl⟩

theorem rooted_reaches_root {flat : List Comment} {c : Comment} (hr : Rooted flat c) :
    ∃ k a, upN flat k c = some a ∧ strTruthy a.parent_comment_id = false := by
  induction hr with
  | root c0 hf => exact ⟨0, c0, rfl, hf⟩
  | step c0 p ht hp hr2 ih =>
    rcases ih with ⟨k, a, hup, hf⟩
    refine ⟨k + 1, a, ?_, hf⟩
    have hstep : upN flat (k + 1) c0 = upN flat k p := by
      simp only [upN]
      rw [if_pos ht, hp]
    rw [hstep]
    exact hup

theorem upN_inj_aux {flat : List Comment} {c vi vj : Comment} (hr : Rooted flat c)
    {i j : Nat} (hlt : i < j) (hvi : upN flat i c = some vi)
    (hvj : upN flat j c = some vj) (hij : vi = vj) : False := by
  have hsum : upN flat (i + (j - i)) c = some vj := by
    rw [Nat.add_sub_cancel' (Nat.le_of_lt hlt)]
    exact hvj
  rw [upN_add flat i (j - i), hvi, Option.some_bind] at hsum
  rw [← hij] at hsum
  obtain ⟨m, hm⟩ : ∃ m, j - i = m + 1 := ⟨j - i - 1, by omega⟩
  rw [hm] at hsum
  exact upN_no_cycle flat (rooted_upN flat i c vi hr hvi) m hsum

theorem rooted_chain_bound {flat : List Comment}
    {c : Comment} (hc : c ∈ flat) (hr : Rooted flat c) :
    ∃ k a, k + 1 ≤ flat.length ∧ upN flat k c = some a ∧
      strTruthy a.parent_comment_id = false := by
  rcases rooted_reaches_root hr with ⟨k, a, hup, hf⟩
  refine ⟨k, a, ?_, hup, hf⟩
  have hvals : ∀ i ∈ List.range (k + 1), ∃ v, upN flat i c = some v ∧ v ∈ flat := by
    intro i hi
    rw [List.mem_range, Nat.lt_succ_iff] at hi
    rcases upN_some_of_le flat k i c a hup hi with ⟨v, hv⟩
    exact ⟨v, hv, upN_mem flat i c v hc hv⟩
  have hinj : ∀ i ∈ List.range (k + 1), ∀ j ∈ List.range (k + 1),
      (upN flat i c).getD c = (upN flat j c).getD c → i = j := by
    intro i hi j hj hij
    rcases hvals i hi with ⟨vi, hvi, hvim⟩
    rcases hvals j hj with ⟨vj, hvj, hvjm⟩
    rw [hvi, hvj] at hij
    simp only [Option.getD_some] at hij
    rcases Nat.lt_trichotomy i j with hlt | heq | hlt
    · exact absurd (upN_inj_aux hr hlt hvi hvj hij) (fun hfl => hfl)
    · exact heq
    · exact absurd (upN_inj_aux hr hlt hvj hvi hij.symm) (fun hfl => hfl)
  have hnodL : ((List.range (k + 1)).map (fun i => (upN flat i c).getD c)).Nodup :=
    List.Nodup.map_on hinj (List.nodup_range (k + 1))
  have hsubL : ∀ z ∈ (List.range (k + 1)).map (fun i => (upN flat i c).getD c), z ∈ flat := by
    intro z hz
    rcases List.mem_map.mp hz with ⟨i, hi, hzi⟩
    rcases hvals i hi with ⟨v, hv, hvm⟩
    rw [← hzi, hv]
    simpa using hvm
  have hcard1 : ((List.range (k + 1)).map (fun i => (upN flat i c).getD c)).toFinset.card
      = k + 1 := by
    rw [List.toFinset_card_of_nodup hnodL]
    simp
  have hsub2 : ((List.range (k + 1)).map (fun i => (upN flat i c).getD c)).toFinset ⊆
      flat.toFinset := by
    intro z hz
    rw [List.mem_toFinset] at hz ⊢
    exact hsubL z hz
  have hle1 := Finset.card_le_card hsub2
  have hle2 := List.toFinset_card_le flat
  omega

theorem organizeRoots_perm {flat : List Comment} (hn : (flat.map Comment.id).Nodup) :
    (organizeRoots flat).Perm
      (flat.filter (fun d => !(strTruthy d.parent_comment_id))) := by
  unfold organizeRoots
  have hcong : ∀ y ∈ flat.filter (fun d => !(strTruthy d.parent_comment_id)),
      nodeOf flat y = y := fun y hy => nodeOf_self hn (List.mem_filter.mp hy).1
  rw [List.map_congr_left hcong, List.map_id']
  exact sortByLe_perm _ _

theorem treeCount_eq_countP {flat : List Comment} (hn : (flat.map Comment.id).Nodup)
    {c : Comment} (hc : c ∈ flat) :
    treeCount flat c.id =
      (flat.filter (fun d => !(strTruthy d.parent_comment_id))).countP
        (fun r => upReachB flat r flat.length c) := by
  unfold treeCount
  have hsum : ((organizeRoots flat).map (countFrom flat c.id flat.length)).sum =
      ((flat.filter (fun d => !(strTruthy d.parent_comment_id))).map
        (countFrom flat c.id flat.length)).sum :=
    ((organizeRoots_perm hn).map (countFrom flat c.id flat.length)).sum_eq
  rw [hsum]
  have hind : ∀ r ∈ flat.filter (fun d => !(strTruthy d.parent_comment_id)),
      countFrom flat c.id flat.length r =
        if upReachB flat r flat.length c = true then 1 else 0 := by
    intro r hrm
    have hrf := List.mem_filter.mp hrm
    have hrfl : strTruthy r.parent_comment_id = false := by
      have hb := hrf.2
      rwa [Bool.not_eq_true'] at hb
    exact countFrom_eq_indicator hn hc flat.length r hrf.1 (Rooted.root r hrfl)
  rw [List.map_congr_left hind,
    sum_map_ite_countP (fun r => upReachB flat r flat.length c) _]

theorem treeCount_eq_one {flat : List Comment} (hn : (flat.map Comment.id).Nodup)
    {c : Comment} (hc : c ∈ flat) (hr : Rooted flat c) : treeCount flat c.id = 1 := by
  rw [treeCount_eq_countP hn hc]
  rcases rooted_chain_bound hc hr with ⟨k, a, hklen, hup, haf⟩
  have ham : a ∈ flat := upN_mem flat k c a hc hup
  have haRoots : a ∈ flat.filter (fun d => !(strTruthy d.parent_comment_id)) :=
    List.mem_filter.mpr ⟨ham, by simp [haf]⟩
  have hareach : upReachB flat a flat.length c = true := by
    rw [upReachB_iff]
    exact ⟨k, by omega, hup⟩
  have huniq : ∀ z ∈ flat.filter (fun d => !(strTruthy d.parent_comment_id)),
      (fun r => upReachB flat r flat.length c) z = true → z = a := by
    intro z hz hzr
    have hzf := List.mem_filter.mp hz
    have hzfl : strTruthy z.parent_comment_id = false := by
      have hb := hzf.2
      rwa [Bool.not_eq_true'] at hb
    rcases (upReachB_iff flat z flat.length c).mp hzr with ⟨k2, hk2, hup2⟩
    rcases Nat.le_total k2 k with hle | hle
    · have hsplit : upN flat (k2 + (k - k2)) c = some a := by
        rw [Nat.add_sub_cancel' hle]
        exact hup
      rw [upN_add flat k2 (k - k2), hup2, Option.some_bind] at hsplit
      cases hd : k - k2 with
      | zero =>
        rw [hd] at hsplit
        simp only [upN, Option.some.injEq] at hsplit
        exact hsplit
      | succ m =>
        rw [hd, upN_falsy_none flat m z hzfl] at hsplit
        exact Option.noConfusion hsplit
    · have hsplit : upN flat (k + (k2 - k)) c = some z := by
        rw [Nat.add_sub_cancel' hle]
        exact hup2
      rw [upN_add flat k (k2 - k), hup, Option.some_bind] at hsplit
      cases hd : k2 - k with
      | zero =>
        rw [hd] at hsplit
        simp only [upN, Option.some.injEq] at hsplit
        exact hsplit.symm
      | succ m =>
        rw [hd, upN_falsy_none flat m a haf] at hsplit
        exact Option.noConfusion hsplit
  exact countP_eq_one_of_unique (List.Nodup.filter _ (List.Nodup.of_map Comment.id hn))
    haRoots hareach huniq

theorem treeCount_eq_zero {flat : List Comment} (hn : (flat.map Comment.id).Nodup)
    {c : Comment} (hc : c ∈ flat) (hnr : ¬Rooted flat c) : treeCount flat c.id = 0 := by
  rw [treeCount_eq_countP hn hc, List.countP_eq_zero]
  intro z hz hcon
  have hzf := List.mem_filter.mp hz
  have hzfl : strTruthy z.parent_comment_id = false := by
    have hb := hzf.2
    rwa [Bool.not_eq_true'] at hb
  rcases (upReachB_iff flat z flat.length c).mp hcon with ⟨k2, hk2, hup2⟩
  exact hnr (rooted_of_upN_falsy flat k2 c z hup2 hzfl)

/-- C10 (amended): for a flat list with distinct ids, a comment whose chain of
parent references terminates at a comment with falsy parent_comment_id
appears exactly once in the forest returned by organizeComments, and every
other comment — including one whose parent_comment_id matches no id in the
list, or whose ancestor chain dangles or cycles — appears zero times (it is
silently dropped). -/
theorem organizeComments_occurrence (flat : List Comment) (c : Comment)
    (hn : (flat.map Comment.id).Nodup) (hc : c ∈ flat) :
    (Rooted flat c → treeCount flat c.id = 1) ∧
    (¬Rooted flat c → treeCount flat c.id = 0) :=
  ⟨fun hr => treeCount_eq_one hn hc hr, fun hnr => treeCount_eq_zero hn hc hnr⟩

theorem organizeComments_occurrence_witness :
    treeCount [⟨"a", "p", none, "u", "x", 1⟩, ⟨"b", "p", some "a", "u", "x", 2⟩]
      (Comment.mk "b" "p" (some "a") "u" "x" 2).id = 1 :=
  (organizeComments_occurrence
      [⟨"a", "p", none, "u", "x", 1⟩, ⟨"b", "p", some "a", "u", "x", 2⟩]
      ⟨"b", "p", some "a", "u", "x", 2⟩ (by decide) (by decide)).1
    (Rooted.step _ ⟨"a", "p", none, "u", "x", 1⟩ (by decide) (by decide)
      (Rooted.root _ (by decide)))

/-- C10 counterexample: comment b's parent_comment_id equals the id of
comment a, which is in the list, yet b appears zero times in the returned
forest, because a's own parent id z matches no comment and the whole chain is
dropped. -/
theorem organizeComments_dropped_cex :
    (Comment.mk "b" "p" (some "a") "u" "x" 2).parent_comment_id =
      some (Comment.mk "a" "p" (some "z") "u" "x" 1).id ∧
    (Comment.mk "a" "p" (some "z") "u" "x" 1) ∈
      ([⟨"a", "p", some "z", "u", "x", 1⟩, ⟨"b", "p", some "a", "u", "x", 2⟩] : List Comment) ∧
    (([⟨"a", "p", some "z", "u", "x", 1⟩, ⟨"b", "p", some "a", "u", "x", 2⟩] : List Comment).map
      Comment.id).Nodup ∧
    treeCount [⟨"a", "p", some "z", "u", "x", 1⟩, ⟨"b", "p", some "a", "u", "x", 2⟩]
      (Comment.mk "b" "p" (some "a") "u" "x" 2).id = 0 := by
  decide
